import Mathlib

/-!
Verification of the Little-Things repository: a shallow embedding of
`src/Timer.js` (a repeating/one-shot timer over the host scheduling
primitives `window.setTimeout` / `window.setInterval` /
`window.clearTimeout` / `window.clearInterval`) and of
`src/gradient-string-making.js` (one-time feature detection producing a
linear-gradient CSS string builder).

The timer embedding models the host as a virtual-time scheduler holding a
list of live registrations, and the timer instance as its two closed-over
mutable variables from the source: `proceed` (nullable continuation) and
`identifier` (handle of the current registration).  Following the source's
technical note Two, the host hands out unique identifiers from one shared
counter for both one-shot and repeating registrations, and (note One) each
of `clearInterval` / `clearTimeout` cancels a registration of either kind
with a matching identifier, so canceling with a stale or foreign handle is
a no-op.  Host callbacks are serialized by the event loop; delays are
clamped at registration time (a negative timeout becomes 0, as in the HTML
timer-initialization steps).  Listener invocations are recorded as the
list of virtual times at which they occur; the host-supplied lateness
value is an opaque pass-through and is not modelled.
-/

set_option maxHeartbeats 1000000

namespace LittleThings

/-- The function values the timer ever hands to the host scheduler.
`proceedOneOff` is the one-off continuation `function(l){proceed = null;
listener(l)}`; `proceedRepeat` is the repeating-timer continuation
`function(l){identifier = setInterval(listener, delay); listener(l)}`;
`listenerCb` is the listener itself (passed to `setInterval`);
`nullHandler` models passing the value null to `setTimeout` (the host
coerces it to the script "null", which does nothing when run). -/
inductive HostCallback where
  | proceedOneOff
  | proceedRepeat
  | listenerCb
  | nullHandler
deriving DecidableEq, Repr

/-- The two function values the closed-over `proceed` variable can hold. -/
inductive ProceedKind where
  | oneOff
  | repeating
deriving DecidableEq, Repr

/-- A live host scheduling registration: its handle, whether it repeats,
the callback value that was registered, its (clamped) period in
milliseconds and the absolute virtual time at which it next fires. -/
structure Reg where
  id : Nat
  repeating : Bool
  callback : HostCallback
  period : Nat
  due : Nat
deriving DecidableEq, Repr

/-- The whole system: host scheduler state (`now`, `nextId`, `regs`), the
timer instance's closed-over variables (`proceed`, `identifier`) and
constructor arguments (`delay`, `oneOff`), plus the observable trace
`fires`: the virtual times at which the listener has been invoked. -/
structure Sys where
  now : Nat
  nextId : Nat
  regs : List Reg
  proceed : Option ProceedKind
  identifier : Nat
  delay : Int
  oneOff : Bool
  fires : List Nat
deriving DecidableEq, Repr

/-- A JavaScript number argument as the timer receives it: `none` models
the value undefined, `some n` an actual (integer) number of ms. -/
abbrev JSNum := Option Int

/-- The delay a host registration actually gets: ToNumber maps undefined
to NaN, and the host timer-initialization steps clamp NaN and negative
timeouts to 0; a nonnegative integer passes through. -/
def jsToNat : JSNum → Nat
  | none => 0
  | some n => n.toNat

/-- `window.setTimeout(cb, d)`: append a one-shot registration due at
`now + clamp d` and return its fresh handle. -/
def setTimeout (s : Sys) (cb : HostCallback) (d : JSNum) : Sys × Nat :=
  ({ s with
      nextId := s.nextId + 1,
      regs := s.regs ++ [⟨s.nextId, false, cb, jsToNat d, s.now + jsToNat d⟩] },
   s.nextId)

/-- `window.setInterval(cb, d)`: append a repeating registration due at
`now + clamp d` and return its fresh handle. -/
def setInterval (s : Sys) (cb : HostCallback) (d : JSNum) : Sys × Nat :=
  ({ s with
      nextId := s.nextId + 1,
      regs := s.regs ++ [⟨s.nextId, true, cb, jsToNat d, s.now + jsToNat d⟩] },
   s.nextId)

/-- Cancel the registration (of either kind) whose handle is `i`; a stale
or foreign handle matches nothing and is a no-op. -/
def clearTimer (s : Sys) (i : Nat) : Sys :=
  { s with regs := s.regs.filter (fun r => r.id != i) }

/-- The source's `stop`: `window.clearInterval(identifier);
window.clearTimeout(identifier)` — both cancellations are attempted with
the current handle. -/
def stop (s : Sys) : Sys :=
  clearTimer (clearTimer s s.identifier) s.identifier

/-- `Timer(listener, delay, oneOff)`: if one-off, register a one-shot
firing of the one-off continuation after `delay`; otherwise set the
repeating continuation and register the listener as a repeating callback
every `delay`. -/
def mkTimer (delay : Int) (oneOff : Bool) (start : Nat) : Sys :=
  let base : Sys :=
    { now := start, nextId := 0, regs := [], proceed := none, identifier := 0,
      delay := delay, oneOff := oneOff, fires := [] }
  if oneOff then
    let r := setTimeout { base with proceed := some ProceedKind.oneOff }
      HostCallback.proceedOneOff (some delay)
    { r.1 with identifier := r.2 }
  else
    let r := setInterval { base with proceed := some ProceedKind.repeating }
      HostCallback.listenerCb (some delay)
    { r.1 with identifier := r.2 }

/-- The source's `destroy`: stop the current registration and null out the
`proceed` variable. -/
def destroy (s : Sys) : Sys :=
  { stop s with proceed := none }

/-- The function value the expression `proceed` denotes at a call site:
the null value once the timer is destroyed (or a one-off timer has
fired), else the stored continuation. -/
def proceedCallback : Option ProceedKind → HostCallback
  | none => HostCallback.nullHandler
  | some ProceedKind.oneOff => HostCallback.proceedOneOff
  | some ProceedKind.repeating => HostCallback.proceedRepeat

/-- The value of the expression `0 == arguments.length ? delay :
postponeDelay`: the timer's own delay when no argument was passed, else
the first argument (which may be the undefined value `none`). -/
def postponeArg (s : Sys) (args : List JSNum) : JSNum :=
  match args with
  | [] => some s.delay
  | v :: _ => v

/-- The source's `postpone(postponeDelay)`: stop the current registration,
then `identifier = setTimeout(proceed, 0 == arguments.length ? delay :
postponeDelay)`.  The arguments object is modelled as the list of passed
values, so an explicitly passed undefined is `[none]`, distinct from an
empty argument list. -/
def postpone (s : Sys) (args : List JSNum) : Sys :=
  let s1 := stop s
  let r := setTimeout s1 (proceedCallback s1.proceed) (postponeArg s1 args)
  { r.1 with identifier := r.2 }

/-- Run a registered callback value at the current instant. -/
def runCallback (s : Sys) : HostCallback → Sys
  | HostCallback.listenerCb => { s with fires := s.fires ++ [s.now] }
  | HostCallback.nullHandler => s
  | HostCallback.proceedOneOff =>
      { s with proceed := none, fires := s.fires ++ [s.now] }
  | HostCallback.proceedRepeat =>
      let r := setInterval s HostCallback.listenerCb (some s.delay)
      { r.1 with identifier := r.2, fires := r.1.fires ++ [r.1.now] }

/-- The host fires registration `r`: a one-shot registration is consumed,
a repeating one is re-scheduled one period from the fire instant; then its
callback runs. -/
def fireReg (s : Sys) (r : Reg) : Sys :=
  let rearm : Reg → Reg :=
    fun q => if q.id = r.id then { q with due := s.now + q.period } else q
  let s0 :=
    if r.repeating then
      { s with regs := s.regs.map rearm }
    else
      { s with regs := s.regs.filter (fun q => q.id != r.id) }
  runCallback s0 r.callback

/-- The registrations due at the current instant. -/
def dueRegs (s : Sys) : List Reg :=
  s.regs.filter (fun r => decide (r.due ≤ s.now))

/-- Fire a list of registrations in order. -/
def fireList (s : Sys) : List Reg → Sys
  | [] => s
  | r :: rest => fireList (fireReg s r) rest

/-- One scheduler pass at the current instant: fire every registration
that is due. -/
def runMs (s : Sys) : Sys :=
  fireList s (dueRegs s)

/-- One millisecond of virtual time elapses. -/
def tick (s : Sys) : Sys :=
  { s with now := s.now + 1 }

/-- Advance virtual time by `t` milliseconds, running the scheduler at the
current instant and after each elapsed millisecond. -/
def advance (s : Sys) : Nat → Sys
  | 0 => runMs s
  | t + 1 => runMs (tick (advance s t))

/-- The operations an owner of a timer instance can perform. -/
inductive Op where
  | postpone (args : List JSNum)
  | destroy
  | advance (t : Nat)

/-- Apply one operation. -/
def applyOp (s : Sys) : Op → Sys
  | Op.postpone args => postpone s args
  | Op.destroy => destroy s
  | Op.advance t => advance s t

/-- Run a sequence of operations. -/
def runOps (s : Sys) : List Op → Sys
  | [] => s
  | o :: rest => runOps (applyOp s o) rest

/-- The state invariant of a timer instance: at most one live host
registration, whose handle is the one stored in `identifier`; once
`proceed` is null every live registration carries the null callback; and a
registration repeats exactly when its callback is the bare listener (the
listener is only ever given to `setInterval`, the continuations and null
only to `setTimeout`). -/
def Inv (s : Sys) : Prop :=
  s.regs.length ≤ 1 ∧
  (∀ r ∈ s.regs, r.id = s.identifier) ∧
  (∀ r ∈ s.regs, s.proceed = none → r.callback = HostCallback.nullHandler) ∧
  (∀ r ∈ s.regs, r.repeating = true ↔ r.callback = HostCallback.listenerCb)

instance (s : Sys) : Decidable (Inv s) := by
  unfold Inv
  infer_instance

/-- Every live registration carries the null callback: the shape of any
state once the timer is destroyed (or a one-off timer has fired and been
postponed again). -/
def nullOnly (s : Sys) : Prop :=
  ∀ r ∈ s.regs, r.callback = HostCallback.nullHandler

/-! ### The gradient-string maker (src/gradient-string-making.js) -/

/-- The host environment as the gradient feature-detection code observes
it: whether arrays have the some and indexOf methods (pre-JS-1.6 engines
lack them), and the probe outcome `accepts tag direction`: whether, after
assigning `tag ++ "linear-gradient(" ++ direction ++ ",lime,aqua)"` to the
background-image of a test element, the style engine retains a value
matching the tester pattern (a value whose text reaches `ient(`). -/
structure StyleHost where
  hasSome : Bool
  hasIndexOf : Bool
  accepts : String → String → Bool

/-- The list of known vendor tags tried by the detection, in source
order (the source calls them prefixes; the empty tag is the unprefixed
standard form). -/
def vendorTags : List String := ["", "-moz-", "-o-", "-webkit-", "-ms-"]

/-- `prefixes.some(testPrefix, direction)`: the first vendor tag (if any)
whose probe succeeds, already combined with the function-name opening as
the source stores it in workingOpening. -/
def findWorkingOpening (host : StyleHost) (direction : String) : Option String :=
  (vendorTags.find? (fun tag => host.accepts tag direction)).map
    (fun tag => tag ++ "linear-gradient(")

/-- ASCII whitespace, as matched by the backslash-s class of the side-or-
corner extractor pattern. -/
def jsIsSpace (c : Char) : Bool :=
  c = ' ' ∨ c = '\t' ∨ c = '\n' ∨ c = '\r' ∨ c = '\x0b' ∨ c = '\x0c'

/-- A word character, as matched by the backslash-w class. -/
def jsIsWord (c : Char) : Bool :=
  c.isAlpha ∨ c.isDigit ∨ c = '_'

/-- The sideOrCornerExtractor regular expression: an anchored match of
optional whitespace, the literal "to", whitespace, a word (group 1) and
optionally further whitespace and a second word (group 3); anything after
the match is ignored. -/
def extractSideOrCorner (input : String) : Option (String × Option String) :=
  match input.data.dropWhile jsIsSpace with
  | 't' :: 'o' :: c :: rest =>
      if jsIsSpace c then
        let afterSpaces := rest.dropWhile jsIsSpace
        let w1 := afterSpaces.takeWhile jsIsWord
        if w1 = [] then none
        else
          let g1 := String.mk w1
          match afterSpaces.dropWhile jsIsWord with
          | c2 :: rest2 =>
              if jsIsSpace c2 then
                let w2 := (rest2.dropWhile jsIsSpace).takeWhile jsIsWord
                if w2 = [] then some (g1, none) else some (g1, some (String.mk w2))
              else some (g1, none)
          | [] => some (g1, none)
      else none
  | _ => none

/-- The sides array of the alternative-syntax converter. -/
def sides : List String := ["top", "right", "bottom", "left"]

/-- JavaScript Array.prototype.indexOf: the index of the element, or -1
when absent. -/
def jsIndexOf (l : List String) (x : String) : Int :=
  match l.indexOf? x with
  | some i => (i : Int)
  | none => -1

/-- The source's reverseSide: the side two places further (cyclically) in
the sides array, through `sides[(sides.indexOf(inputSide) + 2) & 3]`; an
unknown side has index -1 and therefore maps to sides[1] = "right". -/
def reverseSide (inputSide : String) : String :=
  sides.getD ((jsIndexOf sides inputSide + 2).toNat &&& 3) ""

/-- The alternative-syntax formatter's treatment of the first argument: if
it parses as a to-style side-or-corner, replace it with the reversed
side(s); otherwise leave it unchanged. -/
def convertFirstArg (a0 : String) : String :=
  match extractSideOrCorner a0 with
  | none => a0
  | some (g1, none) => reverseSide g1
  | some (g1, some g3) => reverseSide g1 ++ " " ++ reverseSide g3

/-- Rewrite the argument list for the alternative (from) syntax. -/
def convertArgs : List String → List String
  | [] => []
  | a0 :: rest => convertFirstArg a0 :: rest

/-- Which of the three functions the self-invoking detection returns. -/
inductive GradientImpl where
  | nullImpl
  | standard (opening : String)
  | alternative (opening : String)
deriving DecidableEq, Repr

/-- The load-time feature detection: pre-JS-1.6 hosts (no some/indexOf on
arrays) get the null implementation; otherwise the vendor tags are probed
with the standard "to bottom" direction first, then with the alternative
"top" direction; if neither probe succeeds the null implementation is
returned. -/
def detectImpl (host : StyleHost) : GradientImpl :=
  if !(host.hasSome && host.hasIndexOf) then GradientImpl.nullImpl
  else
    match findWorkingOpening host "to bottom" with
    | some op => GradientImpl.standard op
    | none =>
        match findWorkingOpening host "top" with
        | some op => GradientImpl.alternative op
        | none => GradientImpl.nullImpl

/-- The null-ish implementation: always the empty string. -/
def nullImplementation (_args : List String) : String := ""

/-- The returned closure: the null implementation, or the working opening
followed by the comma-joined arguments (converted to the from syntax in
the alternative case) and a closing parenthesis. -/
def applyImpl : GradientImpl → List String → String
  | GradientImpl.nullImpl, args => nullImplementation args
  | GradientImpl.standard op, args => op ++ String.intercalate "," args ++ ")"
  | GradientImpl.alternative op, args =>
      op ++ String.intercalate "," (convertArgs args) ++ ")"

/-- makeLinearGradientString as observed by callers: the detection runs
once and the chosen implementation formats the argument list. -/
def makeLinearGradientString (host : StyleHost) (args : List String) : String :=
  applyImpl (detectImpl host) args

/-- A concrete host for witnesses: arrays are JS 1.6, and exactly the
probe with the "-moz-" tag succeeds (for either direction). -/
def mozHost : StyleHost :=
  ⟨true, true, fun tag _ => tag == "-moz-"⟩

/-- A concrete host for witnesses: a pre-JS-1.6 engine. -/
def oldHost : StyleHost :=
  ⟨false, true, fun _ _ => true⟩

/-! ### Basic scheduler lemmas -/

theorem advance_zero (s : Sys) : advance s 0 = runMs s := rfl

theorem advance_succ (s : Sys) (t : Nat) :
    advance s (t + 1) = runMs (tick (advance s t)) := rfl

theorem runMs_of_no_due (s : Sys) (h : ∀ r ∈ s.regs, ¬ r.due ≤ s.now) :
    runMs s = s := by
  have hd : dueRegs s = [] := by
    simp only [dueRegs, List.filter_eq_nil_iff]
    intro r hr
    simpa using h r hr
  simp [runMs, hd, fireList]

theorem advance_of_no_due (s : Sys) (j : Nat)
    (h : ∀ r ∈ s.regs, s.now + j < r.due) :
    advance s j = { s with now := s.now + j } := by
  induction j with
  | zero =>
      have he : runMs s = s := runMs_of_no_due s (by
        intro r hr
        have := h r hr
        omega)
      simpa [advance_zero] using he
  | succ j ih =>
      have hj : ∀ r ∈ s.regs, s.now + j < r.due := by
        intro r hr
        have := h r hr
        omega
      rw [advance_succ, ih hj]
      have he : runMs { s with now := s.now + j + 1 } =
          { s with now := s.now + j + 1 } := by
        apply runMs_of_no_due
        intro r hr
        have := h r hr
        simp at hr ⊢
        omega
      simpa [tick] using he

theorem advance_of_empty (s : Sys) (t : Nat) (h : s.regs = []) :
    advance s t = { s with now := s.now + t } := by
  apply advance_of_no_due
  simp [h]

theorem advance_to_fire (s : Sys) (r : Reg) (q : Nat)
    (hr : s.regs = [r]) (hq : r.due = s.now + q) :
    advance s q = fireReg { s with now := s.now + q } r := by
  cases q with
  | zero =>
      have hd : dueRegs s = [r] := by
        simp [dueRegs, hr, hq]
      rw [advance_zero]
      show fireList s (dueRegs s) = _
      rw [hd]
      rfl
  | succ j =>
      have hno : ∀ r' ∈ s.regs, s.now + j < r'.due := by
        intro r' hr'
        rw [hr] at hr'
        simp at hr'
        subst hr'
        omega
      rw [advance_succ, advance_of_no_due s j hno]
      have hd : dueRegs { s with now := s.now + j + 1 } = [r] := by
        simp [dueRegs, tick, hr, hq]
        omega
      show fireList _ (dueRegs _) = _
      simp only [tick]
      rw [hd]
      rfl

/-! ### Firing a single registration of each shape -/

theorem fireReg_oneshot (s : Sys) (r : Reg)
    (hrep : r.repeating = false) (hr : s.regs = [r]) :
    fireReg s r = runCallback { s with regs := [] } r.callback := by
  simp [fireReg, hrep, hr, List.filter]

theorem fireReg_listener (s : Sys) (r : Reg)
    (hrep : r.repeating = true) (hr : s.regs = [r]) :
    fireReg s r = runCallback
      { s with regs := [{ r with due := s.now + r.period }] } r.callback := by
  simp [fireReg, hrep, hr]

/-! ### The repeating timer left untouched -/

theorem interval_step (s : Sys) (i p q : Nat)
    (hr : s.regs = [⟨i, true, HostCallback.listenerCb, p, s.now + q⟩]) :
    advance s q =
      { s with
          now := s.now + q,
          regs := [⟨i, true, HostCallback.listenerCb, p, s.now + q + p⟩],
          fires := s.fires ++ [s.now + q] } := by
  rw [advance_to_fire s _ q hr rfl]
  rw [fireReg_listener _ _ rfl (by simpa using hr)]
  rfl

theorem advance_add (s : Sys) (a b : Nat)
    (hstab : runMs (advance s a) = advance s a) :
    advance s (a + b) = advance (advance s a) b := by
  induction b with
  | zero => simpa [advance_zero] using hstab.symm
  | succ b ih =>
      rw [show a + (b + 1) = (a + b) + 1 from rfl, advance_succ, ih, advance_succ]

theorem fires_cons_range (a d0 k : Nat) :
    a :: (List.range k).map (fun n => a + (n + 1) * d0)
      = (List.range (k + 1)).map (fun n => a + n * d0) := by
  rw [List.range_succ_eq_map]
  simp only [List.map_cons, List.map_map, Nat.zero_mul, Nat.add_zero]
  congr 1

theorem interval_iter (p : Nat) (hp : 1 ≤ p) :
    ∀ (k : Nat) (s : Sys) (i : Nat),
    s.regs = [⟨i, true, HostCallback.listenerCb, p, s.now + p⟩] →
    advance s (k * p) =
      { s with
          now := s.now + k * p,
          regs := [⟨i, true, HostCallback.listenerCb, p, s.now + k * p + p⟩],
          fires := s.fires ++ (List.range k).map (fun n => s.now + (n + 1) * p) }
  | 0, s, i, hr => by
      have he : runMs s = s := runMs_of_no_due s (by
        intro r hrr
        rw [hr] at hrr
        simp at hrr
        subst hrr
        simp
        omega)
      rw [Nat.zero_mul, advance_zero, he]
      simp only [Nat.add_zero, List.range_zero, List.map_nil, List.append_nil]
      rw [← hr]
  | k + 1, s, i, hr => by
      have hstep := interval_step s i p p hr
      have hstab : runMs (advance s p) = advance s p := by
        rw [hstep]
        apply runMs_of_no_due
        intro r hrr
        simp at hrr
        subst hrr
        simp
        omega
      have hsplit : advance s ((k + 1) * p) = advance (advance s p) (k * p) := by
        rw [show (k + 1) * p = p + k * p by ring]
        exact advance_add s p (k * p) hstab
      rw [hsplit, hstep]
      rw [interval_iter p hp k _ i (by simp)]
      simp only [List.append_assoc, List.singleton_append]
      have hnow : s.now + p + k * p = s.now + (k + 1) * p := by ring
      rw [hnow]
      simp only [Sys.mk.injEq, true_and, and_true]
      congr 1
      rw [fires_cons_range (s.now + p) p k]
      apply List.map_congr_left
      intro n _
      ring

/-! ### Dead-timer states: every live registration holds the null value -/

theorem fireReg_null (s : Sys) (r : Reg) (hs : nullOnly s)
    (hc : r.callback = HostCallback.nullHandler) :
    (fireReg s r).fires = s.fires ∧ (fireReg s r).proceed = s.proceed ∧
    (fireReg s r).now = s.now ∧ nullOnly (fireReg s r) := by
  cases hrep : r.repeating
  · have he : fireReg s r =
        { s with regs := s.regs.filter (fun q => q.id != r.id) } := by
      simp [fireReg, hrep, hc, runCallback]
    rw [he]
    refine ⟨rfl, rfl, rfl, ?_⟩
    intro q hq
    exact hs q (List.mem_of_mem_filter hq)
  · have he : fireReg s r = { s with regs := s.regs.map (fun q => if q.id = r.id then { q with due := s.now + q.period } else q) } := by
      simp [fireReg, hrep, hc, runCallback]
    rw [he]
    refine ⟨rfl, rfl, rfl, ?_⟩
    intro q hq
    simp only [List.mem_map] at hq
    obtain ⟨q0, hq0, hq0eq⟩ := hq
    have h0 := hs q0 hq0
    subst hq0eq
    by_cases hid : q0.id = r.id <;> simp [hid, h0]

theorem fireList_null (s : Sys) (l : List Reg) (hs : nullOnly s)
    (hl : ∀ r ∈ l, r.callback = HostCallback.nullHandler) :
    (fireList s l).fires = s.fires ∧ (fireList s l).proceed = s.proceed ∧
    (fireList s l).now = s.now ∧ nullOnly (fireList s l) := by
  induction l generalizing s with
  | nil => exact ⟨rfl, rfl, rfl, hs⟩
  | cons r rest ih =>
      have h1 := fireReg_null s r hs (hl r (by simp))
      have h2 := ih (fireReg s r) h1.2.2.2 (fun q hq => hl q (by simp [hq]))
      unfold fireList
      refine ⟨h2.1.trans h1.1, h2.2.1.trans h1.2.1, h2.2.2.1.trans h1.2.2.1,
        h2.2.2.2⟩

theorem runMs_null (s : Sys) (hs : nullOnly s) :
    (runMs s).fires = s.fires ∧ (runMs s).proceed = s.proceed ∧
    (runMs s).now = s.now ∧ nullOnly (runMs s) := by
  apply fireList_null s (dueRegs s) hs
  intro r hr
  exact hs r (List.mem_of_mem_filter hr)

theorem advance_null (s : Sys) (t : Nat) (hs : nullOnly s) :
    (advance s t).fires = s.fires ∧ (advance s t).proceed = s.proceed ∧
    nullOnly (advance s t) := by
  induction t with
  | zero =>
      have h := runMs_null s hs
      exact ⟨h.1, h.2.1, h.2.2.2⟩
  | succ t ih =>
      have htick : nullOnly (tick (advance s t)) := by
        intro r hr
        exact ih.2.2 r hr
      have h := runMs_null (tick (advance s t)) htick
      rw [advance_succ]
      exact ⟨h.1.trans ih.1, h.2.1.trans ih.2.1, h.2.2.2⟩

/-! ### Equations for stop, postpone, destroy, construction -/

theorem stop_regs (s : Sys) :
    (stop s).regs = s.regs.filter (fun r => r.id != s.identifier) := by
  simp [stop, clearTimer, List.filter_filter]

theorem stop_eq_of_owned (s : Sys) (h : ∀ r ∈ s.regs, r.id = s.identifier) :
    stop s = { s with regs := [] } := by
  have : (stop s).regs = [] := by
    rw [stop_regs]
    rw [List.filter_eq_nil_iff]
    intro r hr
    simp [h r hr]
  show clearTimer (clearTimer s s.identifier) s.identifier = _
  simp only [clearTimer]
  simp only [stop, clearTimer] at this
  rw [this]

theorem postpone_eq (s : Sys) (args : List JSNum) :
    postpone s args =
      { s with
          nextId := s.nextId + 1,
          identifier := s.nextId,
          regs := (stop s).regs ++
            [⟨s.nextId, false, proceedCallback s.proceed,
              jsToNat (postponeArg s args), s.now + jsToNat (postponeArg s args)⟩] } := by
  rfl

theorem postpone_eq_of_owned (s : Sys) (args : List JSNum)
    (h : ∀ r ∈ s.regs, r.id = s.identifier) :
    postpone s args =
      { s with
          nextId := s.nextId + 1,
          identifier := s.nextId,
          regs := [⟨s.nextId, false, proceedCallback s.proceed,
            jsToNat (postponeArg s args), s.now + jsToNat (postponeArg s args)⟩] } := by
  rw [postpone_eq]
  rw [show (stop s).regs = [] from by
    rw [stop_regs, List.filter_eq_nil_iff]
    intro r hr
    simp [h r hr]]
  rfl

theorem destroy_eq_of_owned (s : Sys) (h : ∀ r ∈ s.regs, r.id = s.identifier) :
    destroy s = { s with regs := [], proceed := none } := by
  unfold destroy
  rw [stop_eq_of_owned s h]

theorem mkTimer_oneOff_eq (d : Int) (t0 : Nat) :
    mkTimer d true t0 =
      { now := t0, nextId := 1,
        regs := [⟨0, false, HostCallback.proceedOneOff, d.toNat, t0 + d.toNat⟩],
        proceed := some ProceedKind.oneOff, identifier := 0,
        delay := d, oneOff := true, fires := [] } := rfl

theorem mkTimer_repeating_eq (d : Int) (t0 : Nat) :
    mkTimer d false t0 =
      { now := t0, nextId := 1,
        regs := [⟨0, true, HostCallback.listenerCb, d.toNat, t0 + d.toNat⟩],
        proceed := some ProceedKind.repeating, identifier := 0,
        delay := d, oneOff := false, fires := [] } := rfl

/-! ### Preservation of the state invariant -/

theorem proceedCallback_ne_listener (o : Option ProceedKind) :
    proceedCallback o ≠ HostCallback.listenerCb := by
  cases o with
  | none => simp [proceedCallback]
  | some k => cases k <;> simp [proceedCallback]

theorem inv_runMs (s : Sys) (hInv : Inv s) : Inv (runMs s) := by
  obtain ⟨hlen, hid, hnull, hrep⟩ := hInv
  match hregs : s.regs with
  | [] =>
      rw [runMs_of_no_due s (by simp [hregs])]
      exact ⟨hlen, hid, hnull, hrep⟩
  | [r] =>
      have hmem : r ∈ s.regs := by simp [hregs]
      by_cases hdue : r.due ≤ s.now
      case neg =>
        rw [runMs_of_no_due s (by simp [hregs]; omega)]
        exact ⟨hlen, hid, hnull, hrep⟩
      case pos =>
      have hfire : runMs s = fireReg s r := by
        unfold runMs
        have hd : dueRegs s = [r] := by simp [dueRegs, hregs, hdue]
        rw [hd]
        rfl
      cases hcb : r.callback
      case listenerCb =>
          have hrt : r.repeating = true := (hrep r hmem).mpr hcb
          rw [hfire, fireReg_listener s r hrt hregs, hcb]
          simp only [runCallback]
          refine ⟨by simp, ?_, ?_, ?_⟩
          · intro r' hr'
            simp at hr'
            subst hr'
            exact hid r hmem
          · intro r' hr' hnone
            have := hnull r hmem hnone
            rw [hcb] at this
            cases this
          · intro r' hr'
            simp at hr'
            subst hr'
            simpa [hcb] using hrep r hmem
      case nullHandler =>
          have hrf : r.repeating = false := by
            cases h2 : r.repeating
            · rfl
            · have := (hrep r hmem).mp h2
              rw [hcb] at this
              cases this
          rw [hfire, fireReg_oneshot s r hrf hregs, hcb]
          simp only [runCallback]
          exact ⟨by simp, by simp, by simp, by simp⟩
      case proceedOneOff =>
          have hrf : r.repeating = false := by
            cases h2 : r.repeating
            · rfl
            · have := (hrep r hmem).mp h2
              rw [hcb] at this
              cases this
          rw [hfire, fireReg_oneshot s r hrf hregs, hcb]
          simp only [runCallback]
          exact ⟨by simp, by simp, by simp, by simp⟩
      case proceedRepeat =>
          have hrf : r.repeating = false := by
            cases h2 : r.repeating
            · rfl
            · have := (hrep r hmem).mp h2
              rw [hcb] at this
              cases this
          rw [hfire, fireReg_oneshot s r hrf hregs, hcb]
          simp only [runCallback, setInterval]
          refine ⟨by simp, by simp, ?_, by simp⟩
          · intro r' hr' hnone
            have := hnull r hmem hnone
            rw [hcb] at this
            cases this
  | r1 :: r2 :: rest =>
      rw [hregs] at hlen
      simp at hlen

theorem inv_tick (s : Sys) (h : Inv s) : Inv (tick s) := h

theorem inv_advance (s : Sys) (t : Nat) (hInv : Inv s) : Inv (advance s t) := by
  induction t with
  | zero => exact inv_runMs s hInv
  | succ t ih => exact inv_runMs _ (inv_tick _ ih)

theorem inv_postpone (s : Sys) (args : List JSNum) (hInv : Inv s) :
    Inv (postpone s args) := by
  obtain ⟨hlen, hid, hnull, hrep⟩ := hInv
  rw [postpone_eq_of_owned s args hid]
  refine ⟨by simp, by simp, ?_, ?_⟩
  · intro r hr hnone
    simp at hr
    subst hr
    simp at hnone
    rw [hnone]
    rfl
  · intro r hr
    simp at hr
    subst hr
    simpa using (proceedCallback_ne_listener s.proceed).symm ∘ Eq.symm

theorem inv_destroy (s : Sys) (hInv : Inv s) : Inv (destroy s) := by
  rw [destroy_eq_of_owned s hInv.2.1]
  exact ⟨by simp, by simp, by simp, by simp⟩

theorem inv_mkTimer (d : Int) (oneOff : Bool) (t0 : Nat) :
    Inv (mkTimer d oneOff t0) := by
  cases oneOff
  · rw [mkTimer_repeating_eq]
    refine ⟨by simp, by simp, ?_, by simp⟩
    intro r hr hnone
    simp at hnone
  · rw [mkTimer_oneOff_eq]
    refine ⟨by simp, by simp, ?_, by simp⟩
    intro r hr hnone
    simp at hnone

theorem inv_applyOp (s : Sys) (o : Op) (hInv : Inv s) : Inv (applyOp s o) := by
  cases o with
  | postpone args => exact inv_postpone s args hInv
  | destroy => exact inv_destroy s hInv
  | advance t => exact inv_advance s t hInv

theorem inv_runOps (ops : List Op) (s : Sys) (hInv : Inv s) :
    Inv (runOps s ops) := by
  induction ops generalizing s with
  | nil => exact hInv
  | cons o rest ih => exact ih (applyOp s o) (inv_applyOp s o hInv)

/-! ### Once proceed is null, the fires trace is frozen forever -/

theorem silent_runOps (ops : List Op) (s : Sys) (hInv : Inv s)
    (hnp : s.proceed = none) :
    (runOps s ops).fires = s.fires ∧ Inv (runOps s ops) ∧
    (runOps s ops).proceed = none := by
  induction ops generalizing s with
  | nil => exact ⟨rfl, hInv, hnp⟩
  | cons o rest ih =>
      show (runOps (applyOp s o) rest).fires = s.fires ∧ _ ∧ _
      match o with
      | Op.postpone args =>
          have hpp : (postpone s args).proceed = s.proceed := rfl
          have hpf : (postpone s args).fires = s.fires := rfl
          have h3 := ih (postpone s args) (inv_postpone s args hInv)
            (hpp.trans hnp)
          exact ⟨h3.1.trans hpf, h3.2.1, h3.2.2⟩
      | Op.destroy =>
          have hpf : (destroy s).fires = s.fires := rfl
          have h3 := ih (destroy s) (inv_destroy s hInv) rfl
          exact ⟨h3.1.trans hpf, h3.2.1, h3.2.2⟩
      | Op.advance t =>
          have hnull : nullOnly s := fun r hr => hInv.2.2.1 r hr hnp
          have ha := advance_null s t hnull
          have h3 := ih (advance s t) (inv_advance s t hInv)
            (ha.2.1.trans hnp)
          exact ⟨h3.1.trans ha.1, h3.2.1, h3.2.2⟩

/-! ### Further state-computation lemmas -/

theorem advance_single_oneshot (s : Sys) (r : Reg) (q : Nat)
    (hr : s.regs = [r]) (hrep : r.repeating = false) (hdue : r.due = s.now + q) :
    advance s q = runCallback { s with now := s.now + q, regs := [] } r.callback := by
  rw [advance_to_fire s r q hr hdue]
  exact fireReg_oneshot _ r hrep (by simpa using hr)

theorem postpone_some_eq (s : Sys) (p : Nat)
    (hid : ∀ r ∈ s.regs, r.id = s.identifier) :
    postpone s [some (p : Int)] =
      { s with
          nextId := s.nextId + 1,
          identifier := s.nextId,
          regs := [⟨s.nextId, false, proceedCallback s.proceed, p, s.now + p⟩] } := by
  rw [postpone_eq_of_owned s _ hid]
  simp [postponeArg, jsToNat]

theorem postpone_then_advance_fires (s : Sys) (args : List JSNum) (t : Nat)
    (hid : ∀ r ∈ s.regs, r.id = s.identifier) (hnp : s.proceed = none) :
    (advance (postpone s args) t).fires = s.fires := by
  refine ((advance_null (postpone s args) t ?_).1).trans ?_
  · intro r hr
    rw [postpone_eq_of_owned s args hid] at hr
    simp at hr
    subst hr
    show proceedCallback s.proceed = HostCallback.nullHandler
    rw [hnp]
    rfl
  · rfl

theorem oneOff_fire_state (d : Nat) :
    advance (mkTimer (d : Int) true 0) d =
      { now := d, nextId := 1, regs := [], proceed := none, identifier := 0,
        delay := (d : Int), oneOff := true, fires := [d] } := by
  have hr : (mkTimer (d : Int) true 0).regs
      = [⟨0, false, HostCallback.proceedOneOff, d, d⟩] := by
    rw [mkTimer_oneOff_eq]
    simp
  rw [advance_single_oneshot (mkTimer (d : Int) true 0) _ d hr rfl
    (by simp [mkTimer_oneOff_eq])]
  simp [mkTimer_oneOff_eq, runCallback]

/-! ### Claim theorems for the timer -/

/-- C1: once `destroy()` has returned, the listener is never invoked again
by this timer instance.  For every construction, every operation sequence
leading up to the destroy, and every operation sequence afterwards
(postpones with any arguments, further destroys, and advancing virtual
time arbitrarily far — which also runs any host registration still
outstanding at the moment destroy was called), the trace of listener
invocations stays exactly what it was when destroy returned. -/
theorem destroyed_timer_never_fires (d : Int) (oneOff : Bool)
    (ops ops2 : List Op) :
    (runOps (destroy (runOps (mkTimer d oneOff 0) ops)) ops2).fires
      = (destroy (runOps (mkTimer d oneOff 0) ops)).fires := by
  have hI := inv_runOps ops (mkTimer d oneOff 0) (inv_mkTimer d oneOff 0)
  exact (silent_runOps ops2 _ (inv_destroy _ hI) rfl).1

/-- C3: for every timer that has been destroyed, a subsequent postpone
call (with any argument list, including none) has zero observable effect:
the model is total so nothing is thrown, the timer is not revived (the
continuation stays null), and no listener invocation ever follows, however
far virtual time then advances and whatever further operations follow. -/
theorem postpone_after_destroy_noop (d : Int) (oneOff : Bool)
    (ops : List Op) (args : List JSNum) (ops2 : List Op) :
    (runOps (postpone (destroy (runOps (mkTimer d oneOff 0) ops)) args) ops2).fires
      = (destroy (runOps (mkTimer d oneOff 0) ops)).fires ∧
    (runOps (postpone (destroy (runOps (mkTimer d oneOff 0) ops)) args) ops2).proceed
      = none := by
  have hI := inv_runOps ops (mkTimer d oneOff 0) (inv_mkTimer d oneOff 0)
  have h := silent_runOps (Op.postpone args :: ops2) _ (inv_destroy _ hI) rfl
  exact ⟨h.1, h.2.2⟩

/-- C7: along every operation sequence at most one host scheduling
registration is outstanding for the instance, and immediately after any
postpone call returns, exactly one live registration exists. -/
theorem at_most_one_registration (d : Int) (oneOff : Bool) (ops : List Op)
    (args : List JSNum) :
    (runOps (mkTimer d oneOff 0) ops).regs.length ≤ 1 ∧
    (postpone (runOps (mkTimer d oneOff 0) ops) args).regs.length = 1 := by
  have hI := inv_runOps ops (mkTimer d oneOff 0) (inv_mkTimer d oneOff 0)
  refine ⟨hI.1, ?_⟩
  rw [postpone_eq_of_owned _ args hI.2.1]
  simp

/-- C8: destroy is idempotent in the strongest sense: from every state
whatsoever, destroying a second time is a state-level no-op (both
cancellation operations are attempted again and match nothing, and the
continuation is nulled again), and the model is total so no error is
raised. -/
theorem destroy_idempotent (s : Sys) : destroy (destroy s) = destroy s := by
  simp [destroy, stop, clearTimer, List.filter_filter]

/-- C2 counterexample: construction is not rejected for a negative delay.
Constructing a timer with delay -5 succeeds, installs one live host
registration (the host clamps the timeout to 0), and the listener actually
fires — the input is silently coerced, not rejected. -/
theorem construction_negative_delay_cex :
    (mkTimer (-5) true 0).regs.length = 1 ∧
    (advance (mkTimer (-5) true 0) 0).fires = [0] := by
  decide

/-- C2 amended: construction performs no input validation at all.  For
every delay (negative included) and oneOff flag it succeeds and installs
exactly one host registration whose period is the host-clamped delay
(negative delays become 0); the listener value is likewise passed through
to the host uninspected. -/
theorem construction_unvalidated (d : Int) (oneOff : Bool) :
    (mkTimer d oneOff 0).regs.map Reg.period = [d.toNat] ∧
    (mkTimer d oneOff 0).regs.map Reg.repeating = [!oneOff] := by
  cases oneOff <;> simp [mkTimer_oneOff_eq, mkTimer_repeating_eq]

/-- C10: the fallback to the timer's original delay happens only when
postpone is called with zero arguments.  Any explicitly passed argument v
— including the undefined value, which the host clamps to 0 — is what the
new one-shot registration is scheduled with, while a call with no
arguments schedules with the timer's own delay. -/
theorem postpone_uses_explicit_arg (s : Sys) (v : JSNum) :
    (postpone s [v]).regs = (stop s).regs ++
      [⟨s.nextId, false, proceedCallback s.proceed, jsToNat v, s.now + jsToNat v⟩] ∧
    (postpone s []).regs = (stop s).regs ++
      [⟨s.nextId, false, proceedCallback s.proceed, s.delay.toNat,
        s.now + s.delay.toNat⟩] ∧
    jsToNat (none : JSNum) = 0 :=
  ⟨rfl, rfl, rfl⟩

/-- C5: for every delay d ≥ 0, a one-off timer fires its listener exactly
once when virtual time advances by d, and never again however much further
time advances; the continuation clears itself to null on the fire, so a
later postpone (with any arguments) is also a no-op, and indeed any
further sequence of operations leaves the trace at that one invocation. -/
theorem oneOff_fires_exactly_once (d extra extra2 : Nat) (args : List JSNum) :
    (advance (mkTimer (d : Int) true 0) d).fires = [d] ∧
    (advance (mkTimer (d : Int) true 0) d).proceed = none ∧
    (advance (advance (mkTimer (d : Int) true 0) d) extra).fires = [d] ∧
    (advance (postpone (advance (mkTimer (d : Int) true 0) d) args) extra2).fires
      = [d] ∧
    (∀ ops : List Op,
      (runOps (advance (mkTimer (d : Int) true 0) d) ops).fires = [d]) := by
  rw [oneOff_fire_state d]
  refine ⟨rfl, rfl, ?_, ?_, ?_⟩
  · rw [advance_of_empty _ extra rfl]
  · exact postpone_then_advance_fires _ args extra2 (by simp) rfl
  · intro ops
    exact (silent_runOps ops _ ⟨by simp, by simp, by simp, by simp⟩ rfl).1

/-- C6 counterexample: the claim quantifies over every delay ≥ 0 and every
positive k, but at delay 0 it is already self-contradictory (advancing by
k·0 = 0 is one action for all k, and cannot invoke the listener exactly 1
and exactly 2 times).  Concretely, at delay 0 with k = 2 the scheduler
pass at the construction instant invokes the listener once, not twice. -/
theorem repeating_delay_zero_cex :
    ¬ (advance (mkTimer (0 : Int) false 0) (2 * 0)).fires.length = 2 := by
  decide

/-- C6 amended: for every delay d ≥ 1 and every k, a non-one-off timer
left untouched fires its listener exactly k times as virtual time advances
by k·d, at the evenly spaced instants d, 2d, …, kd. -/
theorem repeating_fires_k_times (d k : Nat) (hd : 1 ≤ d) :
    (advance (mkTimer (d : Int) false 0) (k * d)).fires
      = (List.range k).map (fun n => (n + 1) * d) := by
  have hr : (mkTimer (d : Int) false 0).regs
      = [⟨0, true, HostCallback.listenerCb, d,
          (mkTimer (d : Int) false 0).now + d⟩] := by
    rw [mkTimer_repeating_eq]
    simp
  rw [interval_iter d hd k (mkTimer (d : Int) false 0) 0 hr]
  simp [mkTimer_repeating_eq]

/-- C4 counterexample: the claim's cadence-resumption clause fails at
delay 0, which the claim's "every active timer" admits.  For the repeating
timer constructed with delay 0 and postponed by 3, the catch-up fire
occurs at 3, but advancing a further 2·0 = 0 ms yields a trace of two
invocations, not the three (at 3, 3 + 0 and 3 + 2·0) that resuming the
original cadence would require for k = 2. -/
theorem postpone_zero_delay_cadence_cex :
    ¬ ((advance (advance (postpone (mkTimer (0 : Int) false 0)
        [some ((3 : Nat) : Int)]) 3) (2 * 0)).fires.length = 3) := by
  decide

/-- C4 amended: for every active timer (any state satisfying the instance
invariant, with a live continuation) and every p ≥ 0, postpone(p)
schedules the next fire exactly p milliseconds after the call via a
one-shot registration, and that catch-up fire happens exactly once; for a
non-one-off timer whose delay d is at least 1, only upon the catch-up fire
is the repeating registration re-established, and the subsequent fires
resume at the original cadence d measured from the catch-up fire (at
times now+p+d, now+p+2d, …). -/
theorem postpone_delays_once_then_resumes (s : Sys) (d p : Nat)
    (hInv : Inv s) (hdel : s.delay = (d : Int)) :
    (s.proceed = some ProceedKind.repeating → 1 ≤ d →
      (postpone s [some (p : Int)]).regs.map Reg.repeating = [false] ∧
      (∀ j, j < p → (advance (postpone s [some (p : Int)]) j).fires = s.fires) ∧
      (advance (postpone s [some (p : Int)]) p).fires = s.fires ++ [s.now + p] ∧
      (advance (postpone s [some (p : Int)]) p).regs.map
        (fun r => (r.repeating, r.period)) = [(true, d)] ∧
      (∀ k, (advance (advance (postpone s [some (p : Int)]) p) (k * d)).fires
        = s.fires ++ (List.range (k + 1)).map (fun n => s.now + p + n * d))) ∧
    (s.proceed = some ProceedKind.oneOff →
      (∀ j, j < p → (advance (postpone s [some (p : Int)]) j).fires = s.fires) ∧
      (advance (postpone s [some (p : Int)]) p).fires = s.fires ++ [s.now + p] ∧
      (∀ extra, (advance (advance (postpone s [some (p : Int)]) p) extra).fires
        = s.fires ++ [s.now + p])) := by
  have hP := postpone_some_eq s p hInv.2.1
  constructor
  · intro hpr hd
    have hcb : proceedCallback s.proceed = HostCallback.proceedRepeat := by
      rw [hpr]
      rfl
    rw [hP, hcb]
    have hfire :
        advance { s with nextId := s.nextId + 1, identifier := s.nextId, regs := [⟨s.nextId, false, HostCallback.proceedRepeat, p, s.now + p⟩] } p
          = { s with now := s.now + p, nextId := s.nextId + 2, identifier := s.nextId + 1, regs := [⟨s.nextId + 1, true, HostCallback.listenerCb, d, s.now + p + d⟩], fires := s.fires ++ [s.now + p] } := by
      rw [advance_single_oneshot _ _ p rfl rfl rfl]
      simp only [runCallback, setInterval, jsToNat, hdel]
      simp
    refine ⟨rfl, ?_, ?_, ?_, ?_⟩
    · intro j hj
      rw [advance_of_no_due _ j (by intro r hr; simp at hr; subst hr; simp; omega)]
    · rw [hfire]
    · rw [hfire]
      rfl
    · intro k
      rw [hfire]
      rw [interval_iter d hd k _ (s.nextId + 1) rfl]
      show (s.fires ++ [s.now + p]) ++ _ = _
      rw [List.append_assoc, List.singleton_append]
      congr 1
      exact fires_cons_range (s.now + p) d k
  · intro hpr
    have hcb : proceedCallback s.proceed = HostCallback.proceedOneOff := by
      rw [hpr]
      rfl
    rw [hP, hcb]
    have hfire :
        advance { s with nextId := s.nextId + 1, identifier := s.nextId, regs := [⟨s.nextId, false, HostCallback.proceedOneOff, p, s.now + p⟩] } p
          = { s with now := s.now + p, nextId := s.nextId + 1, identifier := s.nextId, regs := [], proceed := none, fires := s.fires ++ [s.now + p] } := by
      rw [advance_single_oneshot _ _ p rfl rfl rfl]
      simp only [runCallback]
    refine ⟨?_, ?_, ?_⟩
    · intro j hj
      rw [advance_of_no_due _ j (by intro r hr; simp at hr; subst hr; simp; omega)]
    · rw [hfire]
    · intro extra
      rw [hfire, advance_of_empty _ extra rfl]

/-- Witness for C4: a fresh repeating timer with delay 2, postponed by 3:
no fire in the first 2 ms after the postpone, the catch-up fire at 3 ms
from a one-shot registration, the repeating registration re-established
with period 2, and one further fire 2 ms after the catch-up. -/
theorem postpone_delays_once_then_resumes_witness :
    Inv (mkTimer (2 : Int) false 0) ∧
    (mkTimer (2 : Int) false 0).delay = ((2 : Nat) : Int) ∧
    (((mkTimer (2 : Int) false 0).proceed = some ProceedKind.repeating → 1 ≤ 2 →
      (postpone (mkTimer (2 : Int) false 0) [some ((3 : Nat) : Int)]).regs.map Reg.repeating = [false] ∧
      (∀ j, j < 3 → (advance (postpone (mkTimer (2 : Int) false 0) [some ((3 : Nat) : Int)]) j).fires = (mkTimer (2 : Int) false 0).fires) ∧
      (advance (postpone (mkTimer (2 : Int) false 0) [some ((3 : Nat) : Int)]) 3).fires = (mkTimer (2 : Int) false 0).fires ++ [(mkTimer (2 : Int) false 0).now + 3] ∧
      (advance (postpone (mkTimer (2 : Int) false 0) [some ((3 : Nat) : Int)]) 3).regs.map (fun r => (r.repeating, r.period)) = [(true, 2)] ∧
      (∀ k, (advance (advance (postpone (mkTimer (2 : Int) false 0) [some ((3 : Nat) : Int)]) 3) (k * 2)).fires
        = (mkTimer (2 : Int) false 0).fires ++ (List.range (k + 1)).map (fun n => (mkTimer (2 : Int) false 0).now + 3 + n * 2))) ∧
    ((mkTimer (2 : Int) false 0).proceed = some ProceedKind.oneOff →
      (∀ j, j < 3 → (advance (postpone (mkTimer (2 : Int) false 0) [some ((3 : Nat) : Int)]) j).fires = (mkTimer (2 : Int) false 0).fires) ∧
      (advance (postpone (mkTimer (2 : Int) false 0) [some ((3 : Nat) : Int)]) 3).fires = (mkTimer (2 : Int) false 0).fires ++ [(mkTimer (2 : Int) false 0).now + 3] ∧
      (∀ extra, (advance (advance (postpone (mkTimer (2 : Int) false 0) [some ((3 : Nat) : Int)]) 3) extra).fires
        = (mkTimer (2 : Int) false 0).fires ++ [(mkTimer (2 : Int) false 0).now + 3]))) :=
  ⟨by decide, by decide,
    postpone_delays_once_then_resumes (mkTimer (2 : Int) false 0) 2 3
      (by decide) (by decide)⟩

/-- Witness for the amended C6 at d = 2, k = 3: fires at 2, 4 and 6. -/
theorem repeating_fires_k_times_witness :
    1 ≤ 2 ∧ (advance (mkTimer (2 : Int) false 0) (3 * 2)).fires
      = (List.range 3).map (fun n => (n + 1) * 2) :=
  ⟨by decide, repeating_fires_k_times 2 3 (by decide)⟩

/-- C9: for every argument list, makeLinearGradientString returns a
ready-to-use CSS function-call string — some detected vendor tag followed
by "linear-gradient(", the joined arguments and a closing parenthesis —
when the host's style engine supports a detected gradient syntax, and the
empty string when no supported syntax is detected, including on
pre-JS-1.6 hosts that lack Array some/indexOf. -/
theorem gradient_string_ready_or_empty (host : StyleHost) (args : List String) :
    (((host.hasSome && host.hasIndexOf) = false ∨
        (∀ tag ∈ vendorTags, host.accepts tag "to bottom" = false ∧
          host.accepts tag "top" = false)) →
      makeLinearGradientString host args = "") ∧
    ((host.hasSome && host.hasIndexOf) = true ∧
        (∃ tag ∈ vendorTags, host.accepts tag "to bottom" = true ∨
          host.accepts tag "top" = true) →
      ∃ t rest, t ∈ vendorTags ∧
        makeLinearGradientString host args
          = t ++ "linear-gradient(" ++ rest ++ ")") := by
  constructor
  · intro h
    cases h with
    | inl hflag =>
        simp [makeLinearGradientString, detectImpl, hflag, applyImpl,
          nullImplementation]
    | inr hnone =>
        have h1 : findWorkingOpening host "to bottom" = none := by
          simp only [findWorkingOpening, Option.map_eq_none']
          rw [List.find?_eq_none]
          intro tag htag
          simp [(hnone tag htag).1]
        have h2 : findWorkingOpening host "top" = none := by
          simp only [findWorkingOpening, Option.map_eq_none']
          rw [List.find?_eq_none]
          intro tag htag
          simp [(hnone tag htag).2]
        unfold makeLinearGradientString detectImpl
        rw [h1, h2]
        cases hflag : !(host.hasSome && host.hasIndexOf) <;>
          simp [applyImpl, nullImplementation]
  · rintro ⟨hflag, tag0, htag0, hacc⟩
    unfold makeLinearGradientString detectImpl
    rw [hflag]
    cases h1 : findWorkingOpening host "to bottom" with
    | some op =>
        obtain ⟨t, hfind, hop⟩ := Option.map_eq_some'.mp h1
        refine ⟨t, String.intercalate "," args, List.mem_of_find?_eq_some hfind, ?_⟩
        simp [applyImpl, ← hop, String.append_assoc]
    | none =>
        cases h2 : findWorkingOpening host "top" with
        | some op =>
            obtain ⟨t, hfind, hop⟩ := Option.map_eq_some'.mp h2
            refine ⟨t, String.intercalate "," (convertArgs args),
              List.mem_of_find?_eq_some hfind, ?_⟩
            simp [applyImpl, ← hop, String.append_assoc]
        | none =>
            exfalso
            have hn1 : host.accepts tag0 "to bottom" ≠ true := by
              have := List.find?_eq_none.mp (by
                simpa [findWorkingOpening, Option.map_eq_none'] using h1)
              exact this tag0 htag0
            have hn2 : host.accepts tag0 "top" ≠ true := by
              have := List.find?_eq_none.mp (by
                simpa [findWorkingOpening, Option.map_eq_none'] using h2)
              exact this tag0 htag0
            cases hacc with
            | inl h => exact hn1 h
            | inr h => exact hn2 h

/-- Witness for C9: on a host accepting exactly the "-moz-" probe the
result is a ready CSS call string, and on a pre-JS-1.6 host it is "". -/
theorem gradient_string_ready_or_empty_witness :
    (∃ t rest, t ∈ vendorTags ∧
      makeLinearGradientString mozHost ["to bottom", "red", "blue"]
        = t ++ "linear-gradient(" ++ rest ++ ")") ∧
    makeLinearGradientString oldHost ["to bottom", "red", "blue"] = "" :=
  ⟨(gradient_string_ready_or_empty mozHost ["to bottom", "red", "blue"]).2
      ⟨by decide, "-moz-", by decide, Or.inl (by decide)⟩,
    (gradient_string_ready_or_empty oldHost ["to bottom", "red", "blue"]).1
      (Or.inl (by decide))⟩

end LittleThings
